import Mathlib

/-!
Verification of the hand-tracking core of the Sky Catch game
(`processTracking` in `src/App.tsx`, lines 342-457).

The core is embedded shallowly:

* Coordinates, velocities and visibility values are rationals (`ℚ`); the
  JavaScript engine computes with IEEE doubles, which we idealize as exact
  field arithmetic, as the specification does ("real-valued").
* `Math.sqrt` is abstracted as an explicit function parameter `sq : ℚ → ℚ`
  threaded through every definition that the source computes a square root
  in.  Every theorem below is proved for an arbitrary `sq`, hence in
  particular for the real square root; concrete witnesses instantiate `sq`
  with `ratSqrt`, which agrees with the mathematical square root on the
  perfect squares occurring in those witnesses.
* The `usedDetections : Set<number>` of the source is modelled as a
  `List ℕ` used only through membership and insertion, and the
  `detections.forEach((det, idx) => ...)` loops are modelled as structural
  recursion over the index-annotated list `enumFrom 0 dets`.
* The single impure read in the transform, `Date.now()` (line 443 of the
  source, used to mint ids for newly created tracks), is modelled by the
  explicit parameter `now : ℕ` of `tick`: one tick reads one timestamp.
-/

attribute [local semireducible] Rat.add Rat.mul Rat.inv Rat.sub Rat.ofScientific

namespace SkyCatch

/-- Handedness label carried by detections and tracks
(`side: 'Left' | 'Right'` in `src/App.tsx`). -/
inductive Side where
  | left : Side
  | right : Side
deriving DecidableEq, Repr

/-- One tick's raw observation, as assembled in `processTracking`
lines 345-354: a position in canvas coordinates and a side label. -/
structure Det where
  x : ℚ
  y : ℚ
  side : Side
deriving DecidableEq, Repr

/-- A persistent track (`TrackedHand` in `src/App.tsx`, lines 24-31). -/
structure Track where
  id : ℕ
  x : ℚ
  y : ℚ
  vx : ℚ
  vy : ℚ
  side : Side
  alpha : ℚ
  framesMissing : ℕ
  framesDetected : ℕ
deriving DecidableEq, Repr

/-- `PERSISTENCE_FRAMES = 20` (`src/App.tsx` line 13). -/
def PERSISTENCE_FRAMES : ℕ := 20

/-- `MAX_MATCH_DIST = 350` (`src/App.tsx` line 14). -/
def MAX_MATCH_DIST : ℚ := 350

/-- `GRACE_PERIOD = 5` (`src/App.tsx` line 15). -/
def GRACE_PERIOD : ℕ := 5

/-- `MIN_SMOOTHING = 0.15` (`src/App.tsx` line 18). -/
def MIN_SMOOTHING : ℚ := 0.15

/-- `MAX_SMOOTHING = 0.8` (`src/App.tsx` line 19). -/
def MAX_SMOOTHING : ℚ := 0.8

/-- Index-annotated view of a list, starting from index `i`: the shape in
which `detections.forEach((det, idx) => ...)` visits the detections. -/
def enumFrom {α : Type} : ℕ → List α → List (ℕ × α)
  | _, [] => []
  | i, a :: as => (i, a) :: enumFrom (i + 1) as

/-- Weighted distance of a detection from a track's predicted position
(`src/App.tsx` lines 362-376): Euclidean distance to
`position + velocity * 0.8`, multiplied by the side factor 0.6 when the
sides agree and 1.0 otherwise. -/
def weightedDist (sq : ℚ → ℚ) (t : Track) (d : Det) : ℚ :=
  let predX := t.x + t.vx * 0.8
  let predY := t.y + t.vy * 0.8
  let dist := sq ((d.x - predX) ^ 2 + (d.y - predY) ^ 2)
  let sideBonus : ℚ := if t.side = d.side then 0.6 else 1.0
  dist * sideBonus

/-- The weighted distance exactly as the specification words it:
Euclidean distance from the detection to the predicted position
`position + velocity × 0.8`, times 0.6 if the detection's side label
equals the track's side label, else 1.0. -/
def wdSpec (sq : ℚ → ℚ) (t : Track) (d : Det) : ℚ :=
  sq ((d.x - (t.x + t.vx * 0.8)) ^ 2 + (d.y - (t.y + t.vy * 0.8)) ^ 2) *
    (if d.side = t.side then 0.6 else 1)

/-- The best-candidate scan of `src/App.tsx` lines 366-382: walk the
index-annotated detections, skip the used ones, and keep the strictly
closest candidate seen so far, starting from the bound
`bestDist = MAX_MATCH_DIST` with no candidate (`bestIdx = -1`). -/
def findBestAux (sq : ℚ → ℚ) (t : Track) (used : List ℕ) :
    List (ℕ × Det) → Option (ℕ × Det) → ℚ → Option (ℕ × Det) × ℚ
  | [], best, bestDist => (best, bestDist)
  | (i, d) :: rest, best, bestDist =>
    if i ∈ used then findBestAux sq t used rest best bestDist
    else if weightedDist sq t d < bestDist then
      findBestAux sq t used rest (some (i, d)) (weightedDist sq t d)
    else findBestAux sq t used rest best bestDist

/-- Full best-match search for one track over this tick's detections. -/
def findBest (sq : ℚ → ℚ) (t : Track) (dets : List Det) (used : List ℕ) :
    Option (ℕ × Det) × ℚ :=
  findBestAux sq t used (enumFrom 0 dets) none MAX_MATCH_DIST

/-- The matched branch of `processTracking` (`src/App.tsx` lines 384-411):
adaptive smoothing toward the detection, instantaneous velocity, counter
resets and unconditional side overwrite. -/
def matchedUpdate (sq : ℚ → ℚ) (t : Track) (d : Det) : Track :=
  let moveDist := sq ((d.x - t.x) ^ 2 + (d.y - t.y) ^ 2)
  let adaptiveAlpha := MIN_SMOOTHING + min moveDist 150 / 150 * (MAX_SMOOTHING - MIN_SMOOTHING)
  let smoothX := t.x + (d.x - t.x) * adaptiveAlpha
  let smoothY := t.y + (d.y - t.y) * adaptiveAlpha
  { t with
    x := smoothX
    y := smoothY
    vx := smoothX - t.x
    vy := smoothY - t.y
    framesMissing := 0
    alpha := 1.0
    framesDetected := t.framesDetected + 1
    side := d.side }

/-- The matched-track update exactly as the specification words it:
`moveDist` is the Euclidean distance from the detection to the pre-update
position, `adaptiveAlpha = 0.15 + min(moveDist,150)/150 × (0.8 − 0.15)`,
the position is lerped toward the detection by `adaptiveAlpha`, velocity
is new minus old position, side is overwritten, `framesMissing = 0`,
`alpha = 1.0`, `framesDetected` goes up by one. -/
def specMatchedUpdate (sq : ℚ → ℚ) (t : Track) (d : Det) : Track :=
  let moveDist := sq ((d.x - t.x) ^ 2 + (d.y - t.y) ^ 2)
  let a := 0.15 + min moveDist 150 / 150 * (0.8 - 0.15)
  let nx := t.x + (d.x - t.x) * a
  let ny := t.y + (d.y - t.y) * a
  { t with
    x := nx
    y := ny
    vx := nx - t.x
    vy := ny - t.y
    framesMissing := 0
    alpha := 1.0
    framesDetected := t.framesDetected + 1
    side := d.side }

/-- The missing branch of `processTracking` (`src/App.tsx` lines 412-435):
damped inertial coasting, miss counter increment, and grace-period gated
visibility decay. -/
def missUpdate (t : Track) : Track :=
  let damping : ℚ := 0.9
  let nextVx := t.vx * damping
  let nextVy := t.vy * damping
  let nextFramesMissing := t.framesMissing + 1
  let newAlpha := if nextFramesMissing > GRACE_PERIOD then max 0 (t.alpha - 0.1) else t.alpha
  { t with
    x := t.x + nextVx
    y := t.y + nextVy
    vx := nextVx
    vy := nextVy
    framesMissing := nextFramesMissing
    alpha := newAlpha }

/-- The unmatched-track update exactly as the specification words it:
velocity times 0.9, position advanced by the damped velocity,
`framesMissing` incremented, `framesDetected` unchanged, and alpha
decreased by 0.1 (floored at 0) iff the post-increment `framesMissing`
is strictly greater than 5, otherwise unchanged. -/
def specMissUpdate (t : Track) : Track :=
  { t with
    x := t.x + t.vx * 0.9
    y := t.y + t.vy * 0.9
    vx := t.vx * 0.9
    vy := t.vy * 0.9
    framesMissing := t.framesMissing + 1
    alpha := if t.framesMissing + 1 > 5 then max 0 (t.alpha - 0.1) else t.alpha }

/-- A freshly created track (`src/App.tsx` lines 440-454): positioned on
the unclaimed detection, zero velocity, fully visible, one tick of
stability, and id `Date.now() + idx` — modelled as `now + idx`. -/
def newTrack (now : ℕ) (idx : ℕ) (d : Det) : Track :=
  { id := now + idx
    x := d.x
    y := d.y
    vx := 0
    vy := 0
    side := d.side
    alpha := 1.0
    framesMissing := 0
    framesDetected := 1 }

/-- Result of the first `forEach` of the tick: the updated survivors (in
processing order), the final set of claimed detection indices, and the
ghost log of claimed indices, one per matched track, in processing
order. -/
structure PhaseResult where
  out : List Track
  used : List ℕ
  log : List ℕ
deriving DecidableEq, Repr

/-- The per-track loop of `processTracking` (`src/App.tsx` lines 361-437):
each existing track, in store order, either claims its best detection,
coasts while `framesMissing < PERSISTENCE_FRAMES`, or is dropped. -/
def trackPhase (sq : ℚ → ℚ) : List Track → List Det → List ℕ → PhaseResult
  | [], _, used => ⟨[], used, []⟩
  | h :: rest, dets, used =>
    match (findBest sq h dets used).1 with
    | some (i, d) =>
      let r := trackPhase sq rest dets (i :: used)
      ⟨matchedUpdate sq h d :: r.out, r.used, i :: r.log⟩
    | none =>
      if h.framesMissing < PERSISTENCE_FRAMES then
        let r := trackPhase sq rest dets used
        ⟨missUpdate h :: r.out, r.used, r.log⟩
      else
        let r := trackPhase sq rest dets used
        ⟨r.out, r.used, r.log⟩

/-- The second `forEach` of the tick (`src/App.tsx` lines 440-454): every
detection whose index was not claimed becomes a new track, in
detection-list order. -/
def newPhaseAux (now : ℕ) (used : List ℕ) : List (ℕ × Det) → List Track
  | [] => []
  | (i, d) :: rest =>
    if i ∈ used then newPhaseAux now used rest
    else newTrack now i d :: newPhaseAux now used rest

/-- One full tick of the tracking core (`src/App.tsx` lines 356-456):
update the existing tracks against this tick's detections, then append a
new track for every unclaimed detection.  `now` is the value the source
reads from `Date.now()` during the tick. -/
def tick (sq : ℚ → ℚ) (s : List Track) (dets : List Det) (now : ℕ) : List Track :=
  let r := trackPhase sq s dets []
  r.out ++ newPhaseAux now r.used (enumFrom 0 dets)

/-- What happened to one existing track during a tick. -/
inductive Outcome where
  | matched : ℕ → Det → Outcome
  | coasted : Outcome
  | dropped : Outcome
deriving DecidableEq, Repr

/-- The per-track outcomes of a tick, one per input track, in store
order; mirrors `trackPhase` exactly. -/
def phaseTrace (sq : ℚ → ℚ) : List Track → List Det → List ℕ → List Outcome
  | [], _, _ => []
  | h :: rest, dets, used =>
    match (findBest sq h dets used).1 with
    | some (i, d) => Outcome.matched i d :: phaseTrace sq rest dets (i :: used)
    | none =>
      (if h.framesMissing < PERSISTENCE_FRAMES then Outcome.coasted else Outcome.dropped) ::
        phaseTrace sq rest dets used

/-- The track update dictated by an outcome: matched tracks are smoothed
onto their detection, coasting tracks take the missing branch, dropped
tracks produce nothing. -/
def outcomeApply (sq : ℚ → ℚ) : Track × Outcome → Option Track
  | (t, Outcome.matched _ d) => some (matchedUpdate sq t d)
  | (t, Outcome.coasted) => some (missUpdate t)
  | (_, Outcome.dropped) => none

/-- Digit-by-digit integer square root with explicit fuel (the fuel is a
bound on the base-4 digit count, so 32 covers every input below `4 ^ 32`);
structural recursion on the fuel keeps it kernel-reducible. -/
def nsqrtAux : ℕ → ℕ → ℕ
  | 0, _ => 0
  | fuel + 1, n =>
    if n < 2 then n
    else
      let r := 2 * nsqrtAux fuel (n / 4)
      if (r + 1) ^ 2 ≤ n then r + 1 else r

/-- Rational square root: exact on perfect squares (numerator and
denominator both squares), used to instantiate the abstract `sq`
parameter on concrete inputs. -/
def ratSqrt (q : ℚ) : ℚ :=
  (nsqrtAux 32 q.num.toNat : ℚ) / (nsqrtAux 32 q.den : ℚ)

/-- Forget a track's id (replace it by 0); used to state which parts of
the tick output are independent of the timestamp. -/
def eraseId (t : Track) : Track :=
  { t with id := 0 }

/-- Stores reachable from the empty store by ticks, with arbitrary
detection lists and timestamps.  The system starts from the empty store
(`trackedHandsRef` is initialized to `[]`). -/
inductive Reachable (sq : ℚ → ℚ) : List Track → Prop where
  | empty : Reachable sq []
  | step (s : List Track) (h : Reachable sq s) (dets : List Det) (now : ℕ) :
      Reachable sq (tick sq s dets now)

/-- Stores reachable from the empty store by ticks whose timestamps are
spaced by at least the detection count of the preceding tick: the second
component is a strict upper bound on every id in the store, and the next
tick's timestamp must not be below it. -/
inductive ReachableSpaced (sq : ℚ → ℚ) : List Track → ℕ → Prop where
  | empty (n : ℕ) : ReachableSpaced sq [] n
  | step (s : List Track) (c : ℕ) (h : ReachableSpaced sq s c) (dets : List Det) (now : ℕ)
      (hle : c ≤ now) : ReachableSpaced sq (tick sq s dets now) (now + dets.length)

/-- Concrete fixture: a track that was just matched (full visibility, no
misses) and is moving right at one unit per tick. -/
def wCoastTrack : Track :=
  ⟨1, 0, 0, 1, 0, Side.left, 1, 0, 4⟩

/-- Concrete fixture: a faded track whose miss streak has reached the
persistence threshold. -/
def wStaleTrack : Track :=
  ⟨7, 0, 0, 0, 0, Side.left, 0.5, 20, 9⟩

/-- Concrete fixture: a track three ticks into a miss streak. -/
def wMidTrack : Track :=
  ⟨3, 0, 0, 0, 0, Side.left, 1, 3, 5⟩

/-- Concrete fixture: a stationary track at the origin. -/
def wAssocTrack : Track :=
  newTrack 0 0 ⟨0, 0, Side.left⟩

/-- Concrete fixture: two detections on the x axis, the second closer to
the origin than the first. -/
def wAssocDets : List Det :=
  [⟨100, 0, Side.left⟩, ⟨10, 0, Side.left⟩]

/-- Concrete fixture: a stationary track at the origin for the
`framesMissing` witness. -/
def wMatchTrack : Track :=
  newTrack 0 0 ⟨0, 0, Side.left⟩

/-- Concrete fixture: first detection list of the id-collision trace. -/
def cD1 : List Det :=
  [⟨0, 0, Side.left⟩, ⟨400, 0, Side.left⟩]

/-- Concrete fixture: second detection list of the id-collision trace — a
far new detection listed first, then the two detections the two existing
tracks re-match. -/
def cD2 : List Det :=
  [⟨2000, 0, Side.left⟩, ⟨0, 0, Side.left⟩, ⟨400, 0, Side.left⟩]

/-- Concrete fixture: the store after two ticks at the consecutive
millisecond timestamps 100 and 101: both tracks of the first tick survive
(ids 100 and 101) and the far detection mints a third track with id
`101 + 0 = 101`, colliding with a live id. -/
def cStore : List Track :=
  tick ratSqrt (tick ratSqrt [] cD1 100) cD2 101

section ProjectionLemmas

variable (sq : ℚ → ℚ) (t : Track) (d : Det)

@[simp] theorem matchedUpdate_id : (matchedUpdate sq t d).id = t.id := rfl

@[simp] theorem matchedUpdate_alpha : (matchedUpdate sq t d).alpha = 1 := rfl

@[simp] theorem matchedUpdate_framesMissing : (matchedUpdate sq t d).framesMissing = 0 := rfl

@[simp] theorem matchedUpdate_framesDetected :
    (matchedUpdate sq t d).framesDetected = t.framesDetected + 1 := rfl

@[simp] theorem missUpdate_id : (missUpdate t).id = t.id := rfl

@[simp] theorem missUpdate_alpha :
    (missUpdate t).alpha =
      if t.framesMissing + 1 > GRACE_PERIOD then max 0 (t.alpha - 0.1) else t.alpha := rfl

@[simp] theorem missUpdate_framesMissing :
    (missUpdate t).framesMissing = t.framesMissing + 1 := rfl

@[simp] theorem missUpdate_framesDetected :
    (missUpdate t).framesDetected = t.framesDetected := rfl

@[simp] theorem newTrack_id (now idx : ℕ) : (newTrack now idx d).id = now + idx := rfl

@[simp] theorem newTrack_alpha (now idx : ℕ) : (newTrack now idx d).alpha = 1 := rfl

@[simp] theorem newTrack_framesMissing (now idx : ℕ) :
    (newTrack now idx d).framesMissing = 0 := rfl

@[simp] theorem newTrack_framesDetected (now idx : ℕ) :
    (newTrack now idx d).framesDetected = 1 := rfl

end ProjectionLemmas

section EnumFromLemmas

variable {α : Type}

theorem mem_enumFrom {j : ℕ} {a : α} :
    ∀ (l : List α) (i : ℕ), (j, a) ∈ enumFrom i l → i ≤ j ∧ j < i + l.length := by
  intro l
  induction l with
  | nil => intro i h; simp [enumFrom] at h
  | cons b bs ih =>
    intro i h
    rw [enumFrom, List.mem_cons] at h
    rcases h with h | h
    · injection h with h1 h2
      subst h1
      exact ⟨le_refl _, by simp⟩
    · have := ih (i + 1) h
      refine ⟨le_trans (Nat.le_succ i) this.1, ?_⟩
      have h2 := this.2
      simp only [List.length_cons]
      omega

theorem enumFrom_pairwise :
    ∀ (l : List α) (i : ℕ), (enumFrom i l).Pairwise (fun p q => p.1 < q.1) := by
  intro l
  induction l with
  | nil => intro i; exact List.Pairwise.nil
  | cons b bs ih =>
    intro i
    rw [enumFrom]
    refine List.Pairwise.cons ?_ (ih (i + 1))
    intro q hq
    exact lt_of_lt_of_le (Nat.lt_succ_self i)
      (mem_enumFrom (j := q.1) (a := q.2) bs (i + 1) (by simpa using hq)).1

end EnumFromLemmas

section FindBestLemmas

variable {sq : ℚ → ℚ} {t : Track} {used : List ℕ}

theorem findBestAux_snd_le :
    ∀ (l : List (ℕ × Det)) (best : Option (ℕ × Det)) (bd : ℚ),
      (findBestAux sq t used l best bd).2 ≤ bd := by
  intro l
  induction l with
  | nil => intro best bd; simp [findBestAux]
  | cons p rest ih =>
    intro best bd
    obtain ⟨i, d⟩ := p
    rw [findBestAux]
    by_cases hu : i ∈ used
    · simpa [hu] using ih best bd
    · by_cases hlt : weightedDist sq t d < bd
      · simpa [hu, hlt] using le_of_lt (lt_of_le_of_lt (ih _ _) hlt)
      · simpa [hu, hlt] using ih best bd

theorem findBestAux_snd_le_of_mem {j : ℕ} {d' : Det} (hj : j ∉ used) :
    ∀ (l : List (ℕ × Det)) (best : Option (ℕ × Det)) (bd : ℚ), (j, d') ∈ l →
      (findBestAux sq t used l best bd).2 ≤ weightedDist sq t d' := by
  intro l
  induction l with
  | nil => intro best bd hmem; simp at hmem
  | cons p rest ih =>
    intro best bd hmem
    obtain ⟨i, d⟩ := p
    rw [List.mem_cons] at hmem
    rw [findBestAux]
    rcases hmem with hmem | hmem
    · injection hmem with h1 h2
      subst h1; subst h2
      simp only [if_neg hj]
      by_cases hlt : weightedDist sq t d' < bd
      · simpa [hlt] using findBestAux_snd_le rest _ _
      · simpa [hlt] using le_trans (findBestAux_snd_le rest best bd) (not_lt.mp hlt)
    · by_cases hu : i ∈ used
      · simpa [hu] using ih best bd hmem
      · by_cases hlt : weightedDist sq t d < bd
        · simpa [hu, hlt] using ih _ _ hmem
        · simpa [hu, hlt] using ih best bd hmem

theorem findBestAux_fst_isSome :
    ∀ (l : List (ℕ × Det)) (p : ℕ × Det) (bd : ℚ),
      (findBestAux sq t used l (some p) bd).1.isSome := by
  intro l
  induction l with
  | nil => intro p bd; simp [findBestAux]
  | cons q rest ih =>
    intro p bd
    obtain ⟨i, d⟩ := q
    rw [findBestAux]
    by_cases hu : i ∈ used
    · simpa [hu] using ih p bd
    · by_cases hlt : weightedDist sq t d < bd
      · simpa [hu, hlt] using ih _ _
      · simpa [hu, hlt] using ih p bd

theorem findBestAux_fst_none :
    ∀ (l : List (ℕ × Det)) (best : Option (ℕ × Det)) (bd : ℚ),
      (findBestAux sq t used l best bd).1 = none →
      best = none ∧ (findBestAux sq t used l best bd).2 = bd := by
  intro l
  induction l with
  | nil => intro best bd h; simpa [findBestAux] using h
  | cons q rest ih =>
    intro best bd h
    obtain ⟨i, d⟩ := q
    rw [findBestAux] at h ⊢
    by_cases hu : i ∈ used
    · rw [if_pos hu] at h ⊢
      exact ih best bd h
    · rw [if_neg hu] at h ⊢
      by_cases hlt : weightedDist sq t d < bd
      · exfalso
        rw [if_pos hlt] at h
        have h4 : (findBestAux sq t used rest (some (i, d)) (weightedDist sq t d)).1.isSome :=
          findBestAux_fst_isSome rest (i, d) (weightedDist sq t d)
        simp [h] at h4
      · rw [if_neg hlt] at h ⊢
        exact ih best bd h

theorem findBestAux_fst_some {k : ℕ} {dd : Det} :
    ∀ (l : List (ℕ × Det)) (best : Option (ℕ × Det)) (bd : ℚ),
      (findBestAux sq t used l best bd).1 = some (k, dd) →
      ((k, dd) ∈ l ∧ k ∉ used ∧
        (findBestAux sq t used l best bd).2 = weightedDist sq t dd ∧
        (findBestAux sq t used l best bd).2 < bd) ∨
      (best = some (k, dd) ∧ (findBestAux sq t used l best bd).2 = bd) := by
  intro l
  induction l with
  | nil =>
    intro best bd h
    right
    exact ⟨by simpa [findBestAux] using h, by simp [findBestAux]⟩
  | cons q rest ih =>
    intro best bd h
    obtain ⟨i, d⟩ := q
    rw [findBestAux] at h ⊢
    by_cases hu : i ∈ used
    · rw [if_pos hu] at h ⊢
      rcases ih _ _ h with hl | hr
      · exact Or.inl ⟨List.mem_cons_of_mem _ hl.1, hl.2⟩
      · exact Or.inr hr
    · rw [if_neg hu] at h ⊢
      by_cases hlt : weightedDist sq t d < bd
      · rw [if_pos hlt] at h ⊢
        rcases ih _ _ h with hl | hr
        · exact Or.inl ⟨List.mem_cons_of_mem _ hl.1, hl.2.1, hl.2.2.1,
            lt_trans hl.2.2.2 hlt⟩
        · have hki := Option.some.inj hr.1
          injection hki with h1 h2
          subst h1; subst h2
          exact Or.inl ⟨List.mem_cons_self _ _, hu, hr.2, lt_of_eq_of_lt hr.2 hlt⟩
      · rw [if_neg hlt] at h ⊢
        rcases ih _ _ h with hl | hr
        · exact Or.inl ⟨List.mem_cons_of_mem _ hl.1, hl.2⟩
        · exact Or.inr hr

theorem findBest_some {k : ℕ} {dd : Det} {dets : List Det}
    (h : (findBest sq t dets used).1 = some (k, dd)) :
    (k, dd) ∈ enumFrom 0 dets ∧ k ∉ used ∧
      (findBest sq t dets used).2 = weightedDist sq t dd ∧
      (findBest sq t dets used).2 < MAX_MATCH_DIST := by
  have := findBestAux_fst_some (enumFrom 0 dets) none MAX_MATCH_DIST h
  rcases this with hl | hr
  · exact hl
  · exact absurd hr.1 (by simp)

theorem findBest_min {k : ℕ} {dd : Det} {dets : List Det} {j : ℕ} {d' : Det}
    (h : (findBest sq t dets used).1 = some (k, dd))
    (hmem : (j, d') ∈ enumFrom 0 dets) (hj : j ∉ used) :
    weightedDist sq t dd ≤ weightedDist sq t d' := by
  have hs := findBest_some h
  have h3 : (findBestAux sq t used (enumFrom 0 dets) none MAX_MATCH_DIST).2 ≤
      weightedDist sq t d' :=
    findBestAux_snd_le_of_mem hj (enumFrom 0 dets) none MAX_MATCH_DIST hmem
  rw [findBest] at hs
  exact hs.2.2.1 ▸ h3

theorem findBest_none {dets : List Det} {j : ℕ} {d' : Det}
    (h : (findBest sq t dets used).1 = none)
    (hmem : (j, d') ∈ enumFrom 0 dets) (hj : j ∉ used) :
    MAX_MATCH_DIST ≤ weightedDist sq t d' := by
  have h2 := findBestAux_fst_none (enumFrom 0 dets) none MAX_MATCH_DIST h
  have h3 : (findBestAux sq t used (enumFrom 0 dets) none MAX_MATCH_DIST).2 ≤
      weightedDist sq t d' :=
    findBestAux_snd_le_of_mem hj (enumFrom 0 dets) none MAX_MATCH_DIST hmem
  exact h2.2 ▸ h3

theorem wdSpec_eq_weightedDist (sq : ℚ → ℚ) (t : Track) (d : Det) :
    wdSpec sq t d = weightedDist sq t d := by
  cases t with
  | mk id x y vx vy side alpha fm fd =>
    cases d with
    | mk dx dy dside =>
      cases side <;> cases dside <;> simp [wdSpec, weightedDist] <;> norm_num

end FindBestLemmas

section PhaseLemmas

variable (sq : ℚ → ℚ)

theorem trackPhase_nil (dets : List Det) (used : List ℕ) :
    trackPhase sq [] dets used = ⟨[], used, []⟩ := rfl

theorem trackPhase_cons_matched {h : Track} {dets : List Det} {used : List ℕ}
    {i : ℕ} {d : Det} (rest : List Track)
    (hfb : (findBest sq h dets used).1 = some (i, d)) :
    trackPhase sq (h :: rest) dets used =
      ⟨matchedUpdate sq h d :: (trackPhase sq rest dets (i :: used)).out,
        (trackPhase sq rest dets (i :: used)).used,
        i :: (trackPhase sq rest dets (i :: used)).log⟩ := by
  rw [trackPhase, hfb]

theorem trackPhase_cons_coast {h : Track} {dets : List Det} {used : List ℕ}
    (rest : List Track)
    (hfb : (findBest sq h dets used).1 = none)
    (hfm : h.framesMissing < PERSISTENCE_FRAMES) :
    trackPhase sq (h :: rest) dets used =
      ⟨missUpdate h :: (trackPhase sq rest dets used).out,
        (trackPhase sq rest dets used).used,
        (trackPhase sq rest dets used).log⟩ := by
  rw [trackPhase, hfb]
  simp [hfm]

theorem trackPhase_cons_drop {h : Track} {dets : List Det} {used : List ℕ}
    (rest : List Track)
    (hfb : (findBest sq h dets used).1 = none)
    (hfm : ¬ h.framesMissing < PERSISTENCE_FRAMES) :
    trackPhase sq (h :: rest) dets used =
      ⟨(trackPhase sq rest dets used).out,
        (trackPhase sq rest dets used).used,
        (trackPhase sq rest dets used).log⟩ := by
  rw [trackPhase, hfb]
  simp [hfm]

theorem phaseTrace_cons_matched {h : Track} {dets : List Det} {used : List ℕ}
    {i : ℕ} {d : Det} (rest : List Track)
    (hfb : (findBest sq h dets used).1 = some (i, d)) :
    phaseTrace sq (h :: rest) dets used =
      Outcome.matched i d :: phaseTrace sq rest dets (i :: used) := by
  rw [phaseTrace, hfb]

theorem phaseTrace_cons_unmatched {h : Track} {dets : List Det} {used : List ℕ}
    (rest : List Track)
    (hfb : (findBest sq h dets used).1 = none) :
    phaseTrace sq (h :: rest) dets used =
      (if h.framesMissing < PERSISTENCE_FRAMES then Outcome.coasted else Outcome.dropped) ::
        phaseTrace sq rest dets used := by
  rw [phaseTrace, hfb]

theorem mem_trackPhase_out {u : Track} :
    ∀ (s : List Track) (dets : List Det) (used : List ℕ),
      u ∈ (trackPhase sq s dets used).out →
      ∃ t, t ∈ s ∧ ((∃ d, u = matchedUpdate sq t d) ∨
        (u = missUpdate t ∧ t.framesMissing < PERSISTENCE_FRAMES)) := by
  intro s
  induction s with
  | nil => intro dets used hu; simp [trackPhase_nil] at hu
  | cons h rest ih =>
    intro dets used hu
    cases hfb : (findBest sq h dets used).1 with
    | some p =>
      obtain ⟨i, d⟩ := p
      rw [trackPhase_cons_matched sq rest hfb] at hu
      rcases List.mem_cons.mp hu with hu | hu
      · exact ⟨h, List.mem_cons_self _ _, Or.inl ⟨d, hu⟩⟩
      · obtain ⟨t, ht, hcase⟩ := ih dets (i :: used) hu
        exact ⟨t, List.mem_cons_of_mem _ ht, hcase⟩
    | none =>
      by_cases hfm : h.framesMissing < PERSISTENCE_FRAMES
      · rw [trackPhase_cons_coast sq rest hfb hfm] at hu
        rcases List.mem_cons.mp hu with hu | hu
        · exact ⟨h, List.mem_cons_self _ _, Or.inr ⟨hu, hfm⟩⟩
        · obtain ⟨t, ht, hcase⟩ := ih dets used hu
          exact ⟨t, List.mem_cons_of_mem _ ht, hcase⟩
      · rw [trackPhase_cons_drop sq rest hfb hfm] at hu
        obtain ⟨t, ht, hcase⟩ := ih dets used hu
        exact ⟨t, List.mem_cons_of_mem _ ht, hcase⟩

theorem trackPhase_out_map_id_sublist :
    ∀ (s : List Track) (dets : List Det) (used : List ℕ),
      ((trackPhase sq s dets used).out.map Track.id).Sublist (s.map Track.id) := by
  intro s
  induction s with
  | nil => intro dets used; simp [trackPhase_nil]
  | cons h rest ih =>
    intro dets used
    cases hfb : (findBest sq h dets used).1 with
    | some p =>
      obtain ⟨i, d⟩ := p
      rw [trackPhase_cons_matched sq rest hfb]
      simpa using List.Sublist.cons₂ h.id (ih dets (i :: used))
    | none =>
      by_cases hfm : h.framesMissing < PERSISTENCE_FRAMES
      · rw [trackPhase_cons_coast sq rest hfb hfm]
        simpa using List.Sublist.cons₂ h.id (ih dets used)
      · rw [trackPhase_cons_drop sq rest hfb hfm]
        simpa using List.Sublist.cons h.id (ih dets used)

theorem trackPhase_out_eq_filterMap :
    ∀ (s : List Track) (dets : List Det) (used : List ℕ),
      (trackPhase sq s dets used).out =
        ((s.zip (phaseTrace sq s dets used)).filterMap (outcomeApply sq)) := by
  intro s
  induction s with
  | nil => intro dets used; simp [trackPhase_nil, phaseTrace]
  | cons h rest ih =>
    intro dets used
    cases hfb : (findBest sq h dets used).1 with
    | some p =>
      obtain ⟨i, d⟩ := p
      rw [trackPhase_cons_matched sq rest hfb, phaseTrace_cons_matched sq rest hfb]
      simp [List.zip_cons_cons, List.filterMap_cons, outcomeApply, ih dets (i :: used)]
    | none =>
      rw [phaseTrace_cons_unmatched sq rest hfb]
      by_cases hfm : h.framesMissing < PERSISTENCE_FRAMES
      · rw [trackPhase_cons_coast sq rest hfb hfm]
        simp [hfm, List.zip_cons_cons, List.filterMap_cons, outcomeApply, ih dets used]
      · rw [trackPhase_cons_drop sq rest hfb hfm]
        simp [hfm, List.zip_cons_cons, List.filterMap_cons, outcomeApply, ih dets used]

theorem phaseTrace_dropped_iff {t : Track} {o : Outcome} :
    ∀ (s : List Track) (dets : List Det) (used : List ℕ),
      (t, o) ∈ s.zip (phaseTrace sq s dets used) →
      (o = Outcome.dropped ↔
        ((∀ i d, o ≠ Outcome.matched i d) ∧ PERSISTENCE_FRAMES ≤ t.framesMissing)) := by
  intro s
  induction s with
  | nil => intro dets used hmem; simp [phaseTrace] at hmem
  | cons h rest ih =>
    intro dets used hmem
    cases hfb : (findBest sq h dets used).1 with
    | some p =>
      obtain ⟨i, d⟩ := p
      rw [phaseTrace_cons_matched sq rest hfb, List.zip_cons_cons, List.mem_cons] at hmem
      rcases hmem with hmem | hmem
      · injection hmem with h1 h2
        subst h1; subst h2
        constructor
        · intro hc; cases hc
        · intro hc; exact absurd rfl (hc.1 i d)
      · exact ih dets (i :: used) hmem
    | none =>
      rw [phaseTrace_cons_unmatched sq rest hfb, List.zip_cons_cons, List.mem_cons] at hmem
      rcases hmem with hmem | hmem
      · injection hmem with h1 h2
        subst h1; subst h2
        by_cases hfm : t.framesMissing < PERSISTENCE_FRAMES
        · rw [if_pos hfm]
          constructor
          · intro hc; cases hc
          · intro hc; exact absurd hc.2 (not_le.mpr hfm)
        · rw [if_neg hfm]
          constructor
          · intro _; exact ⟨fun i d hc => Outcome.noConfusion hc, Nat.le_of_not_lt hfm⟩
          · intro _; rfl
      · exact ih dets used hmem

theorem trackPhase_log_nodup_and_fresh :
    ∀ (s : List Track) (dets : List Det) (used : List ℕ),
      ((trackPhase sq s dets used).log).Nodup ∧
        ∀ i ∈ (trackPhase sq s dets used).log, i ∉ used := by
  intro s
  induction s with
  | nil => intro dets used; simp [trackPhase_nil]
  | cons h rest ih =>
    intro dets used
    cases hfb : (findBest sq h dets used).1 with
    | some p =>
      obtain ⟨i, d⟩ := p
      rw [trackPhase_cons_matched sq rest hfb]
      have hi : i ∉ used := (findBest_some hfb).2.1
      obtain ⟨hnd, hfresh⟩ := ih dets (i :: used)
      refine ⟨List.Nodup.cons ?_ hnd, ?_⟩
      · intro hmem
        exact hfresh i hmem (List.mem_cons_self _ _)
      · intro j hj
        rcases List.mem_cons.mp hj with hj | hj
        · exact hj ▸ hi
        · exact fun hju => hfresh j hj (List.mem_cons_of_mem _ hju)
    | none =>
      by_cases hfm : h.framesMissing < PERSISTENCE_FRAMES
      · rw [trackPhase_cons_coast sq rest hfb hfm]
        exact ih dets used
      · rw [trackPhase_cons_drop sq rest hfb hfm]
        exact ih dets used

theorem mem_newPhaseAux {u : Track} {now : ℕ} {used : List ℕ} :
    ∀ (l : List (ℕ × Det)), u ∈ newPhaseAux now used l →
      ∃ i d, (i, d) ∈ l ∧ i ∉ used ∧ u = newTrack now i d := by
  intro l
  induction l with
  | nil => intro hu; simp [newPhaseAux] at hu
  | cons p rest ih =>
    intro hu
    obtain ⟨i, d⟩ := p
    rw [newPhaseAux] at hu
    by_cases hi : i ∈ used
    · rw [if_pos hi] at hu
      obtain ⟨j, d', hmem, hj, hequ⟩ := ih hu
      exact ⟨j, d', List.mem_cons_of_mem _ hmem, hj, hequ⟩
    · rw [if_neg hi] at hu
      rcases List.mem_cons.mp hu with hu | hu
      · exact ⟨i, d, List.mem_cons_self _ _, hi, hu⟩
      · obtain ⟨j, d', hmem, hj, hequ⟩ := ih hu
        exact ⟨j, d', List.mem_cons_of_mem _ hmem, hj, hequ⟩

theorem mem_tick {u : Track} {s : List Track} {dets : List Det} {now : ℕ}
    (hu : u ∈ tick sq s dets now) :
    (∃ t, t ∈ s ∧ ((∃ d, u = matchedUpdate sq t d) ∨
      (u = missUpdate t ∧ t.framesMissing < PERSISTENCE_FRAMES))) ∨
    (∃ i d, (i, d) ∈ enumFrom 0 dets ∧ u = newTrack now i d) := by
  rw [tick] at hu
  rcases List.mem_append.mp hu with hu | hu
  · exact Or.inl (mem_trackPhase_out sq s dets [] hu)
  · obtain ⟨i, d, hmem, _, hequ⟩ := mem_newPhaseAux (enumFrom 0 dets) hu
    exact Or.inr ⟨i, d, hmem, hequ⟩

end PhaseLemmas

section InvariantHelpers

variable (sq : ℚ → ℚ)

theorem missUpdate_alpha_bounds {t : Track} (h0 : 0 ≤ t.alpha) (h1 : t.alpha ≤ 1) :
    0 ≤ (missUpdate t).alpha ∧ (missUpdate t).alpha ≤ 1 := by
  rw [missUpdate_alpha]
  by_cases hg : t.framesMissing + 1 > GRACE_PERIOD
  · rw [if_pos hg]
    constructor
    · exact le_max_left 0 _
    · exact max_le (by norm_num) (by linarith)
  · rw [if_neg hg]
    exact ⟨h0, h1⟩

theorem tick_alpha_bounds {s : List Track} {dets : List Det} {now : ℕ}
    (hs : ∀ t ∈ s, 0 ≤ t.alpha ∧ t.alpha ≤ 1) :
    ∀ u ∈ tick sq s dets now, 0 ≤ u.alpha ∧ u.alpha ≤ 1 := by
  intro u hu
  rcases mem_tick sq hu with ⟨t, ht, hcase⟩ | ⟨i, d, _, hequ⟩
  · rcases hcase with ⟨d, hequ⟩ | ⟨hequ, _⟩
    · rw [hequ, matchedUpdate_alpha]; norm_num
    · rw [hequ]
      exact missUpdate_alpha_bounds (hs t ht).1 (hs t ht).2
  · rw [hequ, newTrack_alpha]; norm_num

theorem tick_framesMissing_le {s : List Track} {dets : List Det} {now : ℕ} :
    ∀ u ∈ tick sq s dets now, u.framesMissing ≤ PERSISTENCE_FRAMES := by
  intro u hu
  rcases mem_tick sq hu with ⟨t, _, hcase⟩ | ⟨i, d, _, hequ⟩
  · rcases hcase with ⟨d, hequ⟩ | ⟨hequ, hfm⟩
    · rw [hequ, matchedUpdate_framesMissing]; exact Nat.zero_le _
    · rw [hequ, missUpdate_framesMissing]; omega
  · rw [hequ, newTrack_framesMissing]; exact Nat.zero_le _

theorem newPhaseAux_map_eraseId (n₁ n₂ : ℕ) (used : List ℕ) :
    ∀ (l : List (ℕ × Det)),
      (newPhaseAux n₁ used l).map eraseId = (newPhaseAux n₂ used l).map eraseId := by
  intro l
  induction l with
  | nil => simp [newPhaseAux]
  | cons p rest ih =>
    obtain ⟨i, d⟩ := p
    rw [newPhaseAux, newPhaseAux]
    by_cases hi : i ∈ used
    · rw [if_pos hi, if_pos hi]
      exact ih
    · rw [if_neg hi, if_neg hi]
      simp only [List.map_cons, ih]
      rfl

theorem newPhaseAux_map_id_pairwise {now : ℕ} {used : List ℕ} :
    ∀ (l : List (ℕ × Det)), l.Pairwise (fun p q => p.1 < q.1) →
      ((newPhaseAux now used l).map Track.id).Pairwise (· < ·) := by
  intro l
  induction l with
  | nil => intro _; simp [newPhaseAux]
  | cons p rest ih =>
    intro hpw
    obtain ⟨i, d⟩ := p
    obtain ⟨hhead, htail⟩ := List.pairwise_cons.mp hpw
    rw [newPhaseAux]
    by_cases hi : i ∈ used
    · rw [if_pos hi]
      exact ih htail
    · rw [if_neg hi]
      rw [List.map_cons]
      refine List.pairwise_cons.mpr ⟨?_, ih htail⟩
      intro v hv
      rw [List.mem_map] at hv
      obtain ⟨u, hu, hequ⟩ := hv
      obtain ⟨j, d', hmem, _, huj⟩ := mem_newPhaseAux rest hu
      have : u.id = now + j := by rw [huj, newTrack_id]
      rw [newTrack_id, ← hequ, this]
      exact Nat.add_lt_add_left (hhead (j, d') hmem) now

theorem newPhaseAux_sublist (now : ℕ) (used : List ℕ) :
    ∀ (l : List (ℕ × Det)),
      (newPhaseAux now used l).Sublist (l.map (fun p => newTrack now p.1 p.2)) := by
  intro l
  induction l with
  | nil => simp [newPhaseAux]
  | cons p rest ih =>
    obtain ⟨i, d⟩ := p
    rw [newPhaseAux, List.map_cons]
    by_cases hi : i ∈ used
    · rw [if_pos hi]
      exact List.Sublist.cons _ ih
    · rw [if_neg hi]
      exact List.Sublist.cons₂ _ ih

theorem tick_ids_nodup_step {s : List Track} {dets : List Det} {c now : ℕ}
    (hbound : ∀ t ∈ s, t.id < c) (hnd : (s.map Track.id).Nodup) (hle : c ≤ now) :
    ((tick sq s dets now).map Track.id).Nodup ∧
      ∀ u ∈ tick sq s dets now, u.id < now + dets.length := by
  have hsurv : ((trackPhase sq s dets []).out.map Track.id).Sublist (s.map Track.id) :=
    trackPhase_out_map_id_sublist sq s dets []
  have hsurvnd : ((trackPhase sq s dets []).out.map Track.id).Nodup := hsurv.nodup hnd
  have hsurvlt : ∀ u ∈ (trackPhase sq s dets []).out, u.id < c := by
    intro u hu
    obtain ⟨t, ht, hcase⟩ := mem_trackPhase_out sq s dets [] hu
    rcases hcase with ⟨d, hequ⟩ | ⟨hequ, _⟩
    · rw [hequ, matchedUpdate_id]; exact hbound t ht
    · rw [hequ, missUpdate_id]; exact hbound t ht
  have hnewid : ∀ u ∈ newPhaseAux now (trackPhase sq s dets []).used (enumFrom 0 dets),
      now ≤ u.id ∧ u.id < now + dets.length := by
    intro u hu
    obtain ⟨i, d, hmem, _, hequ⟩ := mem_newPhaseAux (enumFrom 0 dets) hu
    have hb := mem_enumFrom dets 0 hmem
    rw [hequ, newTrack_id]
    omega
  have hnewnd : ((newPhaseAux now (trackPhase sq s dets []).used
      (enumFrom 0 dets)).map Track.id).Nodup := by
    have hpw : ((newPhaseAux now (trackPhase sq s dets []).used
        (enumFrom 0 dets)).map Track.id).Pairwise (· < ·) :=
      newPhaseAux_map_id_pairwise (enumFrom 0 dets) (enumFrom_pairwise dets 0)
    exact hpw.imp Nat.ne_of_lt
  constructor
  · rw [tick, List.map_append]
    refine List.Nodup.append hsurvnd hnewnd ?_
    intro a ha hb
    rw [List.mem_map] at ha hb
    obtain ⟨u, hu, hequ⟩ := ha
    obtain ⟨v, hv, heqv⟩ := hb
    have h1 : a < c := hequ ▸ hsurvlt u hu
    have h2 : now ≤ a := heqv ▸ (hnewid v hv).1
    omega
  · intro u hu
    rw [tick] at hu
    rcases List.mem_append.mp hu with hu | hu
    · have := hsurvlt u hu
      omega
    · exact (hnewid u hu).2

end InvariantHelpers

section IterateLemmas

theorem missUpdate_iterate_framesMissing (t : Track) :
    ∀ k : ℕ, (missUpdate^[k] t).framesMissing = t.framesMissing + k := by
  intro k
  induction k with
  | zero => simp
  | succ k ih =>
    rw [Function.iterate_succ_apply', missUpdate_framesMissing, ih]
    omega

theorem missUpdate_iterate_alpha_grace {t : Track} (hfm : t.framesMissing = 0) :
    ∀ k : ℕ, k ≤ GRACE_PERIOD → (missUpdate^[k] t).alpha = t.alpha := by
  intro k
  induction k with
  | zero => intro _; simp
  | succ k ih =>
    intro hk
    rw [Function.iterate_succ_apply', missUpdate_alpha,
      missUpdate_iterate_framesMissing, hfm, ih (Nat.le_of_succ_le hk)]
    rw [if_neg]
    simp only [Nat.zero_add]
    omega

end IterateLemmas

/-- C1 (counterexample): the per-tick transform is NOT determined by the
pair (previous store, detection list) alone: the same empty store and the
same one-detection list produce different next stores when the internal
`Date.now()` read (line 443 of the source) returns 0 versus 1, because the
new track's id is minted from the wall clock. -/
theorem tick_reads_clock_counterexample :
    tick ratSqrt [] [⟨0, 0, Side.left⟩] 0 ≠ tick ratSqrt [] [⟨0, 0, Side.left⟩] 1 := by
  decide

/-- C1 (amended): the per-tick transform is a deterministic, side-effect-free
function of (previous store, detection list, wall-clock timestamp), and the
timestamp read influences only the id fields of newly created tracks: with
ids erased, the tick's output is identical for any two timestamps, for every
square-root function, store and detection list. -/
theorem tick_deterministic_up_to_new_ids (sq : ℚ → ℚ) (s : List Track) (dets : List Det)
    (n₁ n₂ : ℕ) :
    (tick sq s dets n₁).map eraseId = (tick sq s dets n₂).map eraseId := by
  rw [tick, tick, List.map_append, List.map_append,
    newPhaseAux_map_eraseId n₁ n₂ (trackPhase sq s dets []).used (enumFrom 0 dets)]

/-- C2: a processed track is dropped from the tick's output exactly when it
is unmatched this tick with a miss streak already at the persistence
threshold (its 21st consecutive unmatched tick); in reachable stores the
streak never exceeds the threshold, so eviction happens exactly then and not
at the 20th miss; and every track a tick emits is either the update of a
surviving previous track or a brand-new track in its initial state, so an
evicted track never reappears under its old identity even if a matching
detection returns. -/
theorem eviction_iff_miss_streak_exceeds_persistence (sq : ℚ → ℚ) (s : List Track)
    (dets : List Det) (used : List ℕ) (now : ℕ) :
    ((trackPhase sq s dets used).out =
        (s.zip (phaseTrace sq s dets used)).filterMap (outcomeApply sq)) ∧
    (∀ t o, (t, o) ∈ s.zip (phaseTrace sq s dets used) →
      (o = Outcome.dropped ↔
        ((∀ i d, o ≠ Outcome.matched i d) ∧ PERSISTENCE_FRAMES ≤ t.framesMissing))) ∧
    (Reachable sq s → ∀ t ∈ s, t.framesMissing ≤ PERSISTENCE_FRAMES) ∧
    (∀ u ∈ tick sq s dets now,
      (∃ t, t ∈ s ∧ ((∃ d, u = matchedUpdate sq t d) ∨
        (u = missUpdate t ∧ t.framesMissing < PERSISTENCE_FRAMES))) ∨
      (∃ i d, (i, d) ∈ enumFrom 0 dets ∧ u = newTrack now i d ∧
        u.framesDetected = 1 ∧ u.framesMissing = 0 ∧ u.vx = 0 ∧ u.vy = 0 ∧ u.alpha = 1)) := by
  refine ⟨trackPhase_out_eq_filterMap sq s dets used,
    fun t o => phaseTrace_dropped_iff sq s dets used, ?_, ?_⟩
  · intro hr t ht
    cases hr with
    | empty => exact absurd ht (List.not_mem_nil t)
    | step s' h' dets' now' => exact tick_framesMissing_le sq t ht
  · intro u hu
    rcases mem_tick sq hu with h | ⟨i, d, hmem, hequ⟩
    · exact Or.inl h
    · exact Or.inr ⟨i, d, hmem, hequ, by rw [hequ]; rfl, by rw [hequ]; rfl,
        by rw [hequ]; rfl, by rw [hequ]; rfl, by rw [hequ]; rfl⟩

/-- C2 witness: in a one-track store whose track has 20 misses and an empty
detection list, the track's outcome is `dropped` and the theorem yields its
streak bound; and in the store reached by one tick from empty, the new
track's miss streak is within the persistence bound. -/
theorem eviction_iff_miss_streak_exceeds_persistence_witness :
    PERSISTENCE_FRAMES ≤ wStaleTrack.framesMissing ∧
      (newTrack 0 0 ⟨5, 5, Side.left⟩).framesMissing ≤ PERSISTENCE_FRAMES := by
  constructor
  · exact (((eviction_iff_miss_streak_exceeds_persistence ratSqrt [wStaleTrack] [] [] 0).2.1
      wStaleTrack Outcome.dropped (by decide)).mp (by decide)).2
  · exact (eviction_iff_miss_streak_exceeds_persistence ratSqrt
      (tick ratSqrt [] [⟨5, 5, Side.left⟩] 0) [] [] 0).2.2.1
      (Reachable.step [] Reachable.empty [⟨5, 5, Side.left⟩] 0)
      (newTrack 0 0 ⟨5, 5, Side.left⟩) (by decide)

/-- C3: the matched-track update of the code equals the reference definition
of the specification — adaptive alpha `0.15 + min(moveDist,150)/150 × (0.8 −
0.15)` with `moveDist` the Euclidean distance from the detection to the
pre-update position, lerped position, instantaneous velocity, unconditional
side overwrite, `framesMissing = 0`, `alpha = 1.0`, and `framesDetected`
incremented by exactly one — for every square-root function, track and
detection. -/
theorem matched_update_equals_spec_formula (sq : ℚ → ℚ) (t : Track) (d : Det) :
    matchedUpdate sq t d = specMatchedUpdate sq t d := rfl

/-- C4: the unmatched-track update of the code equals the reference
definition of the specification (velocity damped by 0.9, position advanced
by the damped velocity, `framesMissing` incremented, `framesDetected`
unchanged, alpha decreased by 0.1 floored at 0 iff the post-increment streak
exceeds the grace period of 5); a single sub-threshold track with no
detections takes exactly this update under `tick`; and a freshly matched
track that then goes continuously missing keeps alpha exactly 1 through
misses 1–5, has alpha 0.9 at the 6th miss and 0.8 at the 7th. -/
theorem missing_update_equals_spec_formula :
    (∀ t : Track, missUpdate t = specMissUpdate t) ∧
    (∀ (sq : ℚ → ℚ) (t : Track) (now : ℕ), t.framesMissing < PERSISTENCE_FRAMES →
      tick sq [t] [] now = [missUpdate t]) ∧
    (∀ t : Track, t.alpha = 1 → t.framesMissing = 0 →
      (∀ k, k ≤ 5 → (missUpdate^[k] t).alpha = 1) ∧
      (missUpdate^[6] t).alpha = 0.9 ∧ (missUpdate^[7] t).alpha = 0.8) := by
  refine ⟨fun t => rfl, ?_, ?_⟩
  · intro q t now hfm
    have hfb : (findBest q t ([] : List Det) ([] : List ℕ)).1 = none := rfl
    rw [tick, trackPhase_cons_coast q ([] : List Track) hfb hfm, trackPhase_nil]
    simp [newPhaseAux, enumFrom]
  · intro t ha hfm
    have h5 : (missUpdate^[5] t).alpha = 1 := by
      rw [missUpdate_iterate_alpha_grace hfm 5 (le_refl 5), ha]
    have hfm5 : (missUpdate^[5] t).framesMissing = 5 := by
      rw [missUpdate_iterate_framesMissing, hfm]
    have h6 : (missUpdate^[6] t).alpha = 0.9 := by
      rw [show (6 : ℕ) = 5 + 1 from rfl, Function.iterate_succ_apply', missUpdate_alpha,
        hfm5, h5]
      norm_num [GRACE_PERIOD]
    have hfm6 : (missUpdate^[6] t).framesMissing = 6 := by
      rw [missUpdate_iterate_framesMissing, hfm]
    have h7 : (missUpdate^[7] t).alpha = 0.8 := by
      rw [show (7 : ℕ) = 6 + 1 from rfl, Function.iterate_succ_apply', missUpdate_alpha,
        hfm6, h6]
      norm_num [GRACE_PERIOD]
    refine ⟨?_, h6, h7⟩
    intro k hk
    rw [missUpdate_iterate_alpha_grace hfm k hk, ha]

/-- C4 witness: the concrete fixture track (just matched, alpha 1, moving
right) coasts under a detection-free tick, and its alpha stays 1 through the
5th miss, is 0.9 at the 6th and 0.8 at the 7th. -/
theorem missing_update_equals_spec_formula_witness :
    tick ratSqrt [wCoastTrack] [] 0 = [missUpdate wCoastTrack] ∧
    (missUpdate^[5] wCoastTrack).alpha = 1 ∧
    (missUpdate^[6] wCoastTrack).alpha = 0.9 ∧
    (missUpdate^[7] wCoastTrack).alpha = 0.8 :=
  ⟨missing_update_equals_spec_formula.2.1 ratSqrt wCoastTrack 0 (by decide),
    (missing_update_equals_spec_formula.2.2 wCoastTrack rfl rfl).1 5 (by norm_num),
    (missing_update_equals_spec_formula.2.2 wCoastTrack rfl rfl).2.1,
    (missing_update_equals_spec_formula.2.2 wCoastTrack rfl rfl).2.2⟩

/-- C5: for a track evaluated against the still-unused detections, a
successful match selects an unused detection whose weighted distance —
Euclidean distance to the predicted position `position + velocity × 0.8`
times 0.6 on an equal side label and 1.0 otherwise — is strictly below
`MAX_MATCH_DIST = 350` and minimal among all unused detections; with no
successful match, every unused detection is at weighted distance at least
350. -/
theorem associator_matches_min_weighted_distance (sq : ℚ → ℚ) (t : Track)
    (dets : List Det) (used : List ℕ) :
    (∀ i d v, findBest sq t dets used = (some (i, d), v) →
      i ∉ used ∧ (i, d) ∈ enumFrom 0 dets ∧ wdSpec sq t d < MAX_MATCH_DIST ∧
      ∀ j d', (j, d') ∈ enumFrom 0 dets → j ∉ used →
        wdSpec sq t d ≤ wdSpec sq t d') ∧
    ((findBest sq t dets used).1 = none →
      ∀ j d', (j, d') ∈ enumFrom 0 dets → j ∉ used →
        MAX_MATCH_DIST ≤ wdSpec sq t d') := by
  constructor
  · intro i d v hfb
    have h1 : (findBest sq t dets used).1 = some (i, d) := by rw [hfb]
    have hs := findBest_some h1
    simp only [wdSpec_eq_weightedDist]
    exact ⟨hs.2.1, hs.1, hs.2.2.1 ▸ hs.2.2.2,
      fun j d' hm hj => findBest_min h1 hm hj⟩
  · intro hnone j d' hm hj
    simp only [wdSpec_eq_weightedDist]
    exact findBest_none hnone hm hj

/-- C5 witness: against the fixture track at the origin and the two
fixture detections, the associator selects the nearer detection (index 1,
weighted distance 6), which is under the gate and no farther than the other
candidate. -/
theorem associator_matches_min_weighted_distance_witness :
    wdSpec ratSqrt wAssocTrack ⟨10, 0, Side.left⟩ < MAX_MATCH_DIST ∧
    wdSpec ratSqrt wAssocTrack ⟨10, 0, Side.left⟩ ≤
      wdSpec ratSqrt wAssocTrack ⟨100, 0, Side.left⟩ := by
  have h := (associator_matches_min_weighted_distance ratSqrt wAssocTrack wAssocDets []).1
    1 ⟨10, 0, Side.left⟩ 6 (by decide)
  exact ⟨h.2.2.1, h.2.2.2 0 ⟨100, 0, Side.left⟩ (by decide) (by decide)⟩

/-- C6: within a single tick, no detection is matched to more than one
track: the list of detection indices claimed during the track-update phase
(started, as in the tick, from an empty used set) has no duplicates — each
claimed detection is excluded from consideration by all later tracks. -/
theorem no_detection_claimed_twice (sq : ℚ → ℚ) (s : List Track) (dets : List Det) :
    ((trackPhase sq s dets []).log).Nodup :=
  (trackPhase_log_nodup_and_fresh sq s dets []).1

/-- C7: in every store reachable from the empty store by ticks, every
track's alpha lies in the unit interval after every tick. -/
theorem alpha_in_unit_interval (sq : ℚ → ℚ) (s : List Track) (h : Reachable sq s) :
    ∀ t ∈ s, 0 ≤ t.alpha ∧ t.alpha ≤ 1 := by
  induction h with
  | empty => intro t ht; exact absurd ht (List.not_mem_nil t)
  | step s' h' dets now ih => exact tick_alpha_bounds sq ih

/-- C7 witness: the single track of the store reached by one tick from the
empty store has alpha within the unit interval. -/
theorem alpha_in_unit_interval_witness :
    0 ≤ (newTrack 3 0 ⟨7, 8, Side.right⟩).alpha ∧
      (newTrack 3 0 ⟨7, 8, Side.right⟩).alpha ≤ 1 :=
  alpha_in_unit_interval ratSqrt (tick ratSqrt [] [⟨7, 8, Side.right⟩] 3)
    (Reachable.step [] Reachable.empty [⟨7, 8, Side.right⟩] 3)
    (newTrack 3 0 ⟨7, 8, Side.right⟩) (by decide)

/-- C8: immediately after a tick, a surviving track's `framesMissing` is 0
iff that track was matched during the tick (a coasting track's counter is
its incremented streak, never 0), and every newly created track starts with
`framesMissing = 0` having just claimed its detection. -/
theorem framesMissing_zero_iff_matched (sq : ℚ → ℚ) (s : List Track) (dets : List Det)
    (used : List ℕ) :
    (∀ t o u, (t, o) ∈ s.zip (phaseTrace sq s dets used) →
      outcomeApply sq (t, o) = some u →
      (u.framesMissing = 0 ↔ ∃ i d, o = Outcome.matched i d)) ∧
    (∀ now i d, (newTrack now i d).framesMissing = 0) := by
  constructor
  · intro t o u _ happ
    cases o with
    | matched i d =>
      have hequ : u = matchedUpdate sq t d := (Option.some.inj happ).symm
      subst hequ
      simp only [matchedUpdate_framesMissing]
      exact ⟨fun _ => ⟨i, d, rfl⟩, fun _ => trivial⟩
    | coasted =>
      have hequ : u = missUpdate t := (Option.some.inj happ).symm
      subst hequ
      simp only [missUpdate_framesMissing]
      constructor
      · intro hc; omega
      · rintro ⟨i, d, hc⟩; cases hc
    | dropped => cases happ
  · intro now i d
    exact newTrack_framesMissing d now i

/-- C8 witness: the fixture track matched on its own detection comes out
with `framesMissing = 0`, and the mid-streak fixture track coasting through
a detection-free tick comes out with a nonzero counter. -/
theorem framesMissing_zero_iff_matched_witness :
    (matchedUpdate ratSqrt wMatchTrack ⟨0, 0, Side.left⟩).framesMissing = 0 ∧
    (missUpdate wMidTrack).framesMissing ≠ 0 := by
  constructor
  · exact ((framesMissing_zero_iff_matched ratSqrt [wMatchTrack] [⟨0, 0, Side.left⟩] []).1
      wMatchTrack (Outcome.matched 0 ⟨0, 0, Side.left⟩)
      (matchedUpdate ratSqrt wMatchTrack ⟨0, 0, Side.left⟩)
      (by decide) rfl).mpr ⟨0, ⟨0, 0, Side.left⟩, rfl⟩
  · intro hc
    obtain ⟨i, d, hid⟩ := ((framesMissing_zero_iff_matched ratSqrt [wMidTrack] [] []).1
      wMidTrack Outcome.coasted (missUpdate wMidTrack) (by decide) rfl).mp hc
    cases hid

/-- C9 (counterexample): a store reachable from the empty store by two ticks
at the strictly increasing timestamps 100 and 101 contains two live tracks
with the same id 101 — `Date.now() + idx` (line 443 of the source) collides
with the id of a surviving track minted one millisecond earlier, so the ids
of the tracks currently in the store are not always pairwise distinct. -/
theorem track_ids_collide_counterexample :
    Reachable ratSqrt cStore ∧ ¬ (cStore.map Track.id).Nodup := by
  constructor
  · exact Reachable.step (tick ratSqrt [] cD1 100)
      (Reachable.step [] Reachable.empty cD1 100) cD2 101
  · decide

/-- C9 (amended): each track's id is assigned at creation and is never
changed by matched or coasting updates, and the ids of the tracks in the
store are pairwise distinct provided consecutive tick timestamps are spaced
by at least the preceding tick's detection count (the spacing rules out the
`Date.now() + idx` collisions of the counterexample); the id bound
component makes the induction explicit. -/
theorem track_ids_distinct_under_spaced_timestamps :
    (∀ (sq : ℚ → ℚ) (s : List Track) (c : ℕ), ReachableSpaced sq s c →
      ((s.map Track.id).Nodup ∧ ∀ t ∈ s, t.id < c)) ∧
    (∀ (sq : ℚ → ℚ) (t : Track) (d : Det), (matchedUpdate sq t d).id = t.id) ∧
    (∀ t : Track, (missUpdate t).id = t.id) := by
  refine ⟨?_, fun sq t d => rfl, fun t => rfl⟩
  intro sq s c h
  induction h with
  | empty n => exact ⟨List.nodup_nil, fun t ht => absurd ht (List.not_mem_nil t)⟩
  | step s' c' h' dets now hle ih => exact tick_ids_nodup_step sq ih.2 ih.1 hle

/-- C9 amended witness: the store reached by one tick from the empty store
under a validly spaced timestamp has pairwise-distinct ids. -/
theorem track_ids_distinct_under_spaced_timestamps_witness :
    ((tick ratSqrt [] [⟨1, 2, Side.left⟩] 5).map Track.id).Nodup :=
  (track_ids_distinct_under_spaced_timestamps.1 ratSqrt
    (tick ratSqrt [] [⟨1, 2, Side.left⟩] 5) (5 + [(⟨1, 2, Side.left⟩ : Det)].length)
    (ReachableSpaced.step [] 0 (ReachableSpaced.empty 0) [⟨1, 2, Side.left⟩] 5
      (Nat.zero_le 5))).1

/-- C10: a tick's output is the in-order updates of the surviving previous
tracks followed by the newly created tracks; the survivors keep the
relative order they had (their id sequence is a subsequence of the previous
store's id sequence) and the new tracks appear in detection-list order (a
subsequence of the full per-detection new-track list); hence the store
stays ordered oldest track first and the greedy associator serves the
oldest track first. -/
theorem tick_preserves_order_and_appends_new (sq : ℚ → ℚ) (s : List Track)
    (dets : List Det) (now : ℕ) :
    (tick sq s dets now =
      ((s.zip (phaseTrace sq s dets [])).filterMap (outcomeApply sq)) ++
        newPhaseAux now (trackPhase sq s dets []).used (enumFrom 0 dets)) ∧
    (((trackPhase sq s dets []).out.map Track.id).Sublist (s.map Track.id)) ∧
    ((newPhaseAux now (trackPhase sq s dets []).used (enumFrom 0 dets)).Sublist
      ((enumFrom 0 dets).map (fun p => newTrack now p.1 p.2))) := by
  refine ⟨?_, trackPhase_out_map_id_sublist sq s dets [],
    newPhaseAux_sublist now (trackPhase sq s dets []).used (enumFrom 0 dets)⟩
  rw [tick, trackPhase_out_eq_filterMap]

end SkyCatch
